import Mathlib

/-!
Verification of the outline parser and page-graph engine of the
publish-spa-rust-wasm repository, which contains two Rust crates:
`publish-spa` (src/publish-spa/src) and `logseq-publisher-rust`
(src/logseq-publisher-rust/src).  The parser and graph are shallowly
embedded below; machine strings are modelled by Lean `String`
(a list of unicode scalar values, matching Rust `&str` at the `chars()`
level; the only byte-index operations in the source slice off ASCII
prefixes, where byte and char counts agree).
-/

/-- Character test modelling Rust `char::is_whitespace` restricted to the
ASCII range (the source only ever feeds line content, so no `\n` survives;
non-ASCII unicode whitespace is not modelled). -/
def isRustWs (c : Char) : Bool :=
  c = ' ' || c = '\t' || c = '\n' || c = '\r' || c = '\x0b' || c = '\x0c'

/-- Both-ends trim on a character list, modelling Rust `str::trim`. -/
def trimChars (l : List Char) : List Char :=
  ((l.dropWhile isRustWs).reverse.dropWhile isRustWs).reverse

/-- String form of `trimChars`, modelling `line.trim()`. -/
def strTrim (s : String) : String := String.mk (trimChars s.data)

/-- Drops one trailing carriage return from a reversed character buffer;
used by `rustLines` to model the `\r\n` handling of Rust `str::lines`. -/
def dropCRrev : List Char → List Char
  | '\r' :: t => t
  | l => l

/-- Accumulating worker for `rustLines`: `acc` holds the current line
reversed. A line terminated by `\n` has one trailing `\r` stripped; a final
unterminated line keeps any `\r`, and a trailing newline produces no extra
empty line — exactly the semantics of Rust `str::lines`. -/
def rustLinesAux : List Char → List Char → List String
  | [], acc => if acc = [] then [] else [String.mk acc.reverse]
  | '\n' :: rest, acc => String.mk (dropCRrev acc).reverse :: rustLinesAux rest []
  | c :: rest, acc => rustLinesAux rest (c :: acc)

/-- Model of `content.lines().collect::<Vec<&str>>()` from Rust. -/
def rustLines (s : String) : List String := rustLinesAux s.data []

/-- Worker for `split_once`: splits a character list at the first
occurrence of `c`, returning the pieces before and after it. -/
def splitOnceAux (c : Char) : List Char → Option (List Char × List Char)
  | [] => none
  | x :: xs =>
    if x = c then some ([], xs)
    else (splitOnceAux c xs).map (fun p => (x :: p.1, p.2))

/-- Model of Rust `str::split_once`. -/
def split_once (s : String) (c : Char) : Option (String × String) :=
  (splitOnceAux c s.data).map (fun p => (String.mk p.1, String.mk p.2))

/-- Worker for `lastSegment`: returns the segment after the last `/`. -/
def splitSlashAux : List Char → List Char → List Char
  | [], acc => acc.reverse
  | '/' :: rest, acc => splitSlashAux rest []
  | c :: rest, acc => splitSlashAux rest (c :: acc)

/-- Model of `path.split('/').last().unwrap_or(path)`: `split('/')` always
yields at least one (possibly empty) segment, so the fallback never fires. -/
def lastSegment (s : String) : String := String.mk (splitSlashAux s.data [])

/-- Fuelled worker for `trim_end_matches`; the fuel (the string length)
is ample because each round removes a non-empty suffix. -/
def trimEndAux : Nat → List Char → List Char → List Char
  | 0, _, l => l
  | n + 1, sfx, l =>
    if sfx ≠ [] ∧ sfx.isSuffixOf l then
      trimEndAux n sfx (l.take (l.length - sfx.length))
    else l

/-- Model of Rust `str::trim_end_matches` (removes every repetition of the
suffix). -/
def trim_end_matches (s : String) (sfx : String) : String :=
  String.mk (trimEndAux s.data.length sfx.data s.data)

/-- A parsed outline block: id, content, children, properties, indentation
level — the `Block` struct of parser.rs (identical in both crates).
`HashMap<String,String>` is modelled as an association list. -/
inductive Block : Type where
  | mk (id : String) (content : String) (children : List Block)
       (properties : List (String × String)) (level : Nat)

def Block.id : Block → String
  | .mk i _ _ _ _ => i

def Block.content : Block → String
  | .mk _ c _ _ _ => c

def Block.children : Block → List Block
  | .mk _ _ ch _ _ => ch

def Block.props : Block → List (String × String)
  | .mk _ _ _ p _ => p

def Block.level : Block → Nat
  | .mk _ _ _ _ l => l

/-- A parsed page — the `Page` struct of parser.rs (identical in both
crates). -/
structure Page where
  path : String
  title : String
  properties : List (String × String)
  blocks : List Block
  tags : List String
  links : List String

/-- Model of `HashMap::insert` on an association list: replace the entry
with this key if present, otherwise add one. -/
def insertProp (k v : String) : List (String × String) → List (String × String)
  | [] => [(k, v)]
  | (k', v') :: rest =>
    if k' = k then (k, v) :: rest else (k', v') :: insertProp k v rest

/-- Frontmatter property collection — `parse_properties` of parser.rs
(identical in both crates): a `---` line closes the frontmatter and its
index (within the slice that starts after the opening `---`) is returned;
a line with a `:` contributes a trimmed key/value pair; any other line is
skipped; running out of lines is the `Unclosed frontmatter` error. -/
def parse_properties : List String → List (String × String) →
    Except String (Nat × List (String × String))
  | [], _ => .error "Unclosed frontmatter"
  | l :: rest, props =>
    if l = "---" then .ok (0, props)
    else
      (parse_properties rest
        (match split_once l ':' with
         | some kv => insertProp (strTrim kv.1) (strTrim kv.2) props
         | none => props)).map (fun r => (r.1 + 1, r.2))

/-- Character class of the regex `\w` (word character), in the ASCII range
used by the tests; the Rust regex crate's unicode extension of `\w` is not
modelled. -/
def isWordChar (c : Char) : Bool := c.isAlphanum || c = '_'

/-- Fuelled scanner modelling `Regex::new(r"#(\w+)").captures_iter`:
leftmost, non-overlapping matches of a `#` followed by a maximal non-empty
run of word characters; a `#` not followed by a word character fails and
scanning resumes at the next position. The fuel (list length + 1) is ample
because every step consumes at least one character. -/
def findTagsF : Nat → List Char → List String
  | 0, _ => []
  | _ + 1, [] => []
  | fuel + 1, '#' :: rest =>
    let w := rest.takeWhile isWordChar
    if w = [] then findTagsF fuel rest
    else String.mk w :: findTagsF fuel (rest.dropWhile isWordChar)
  | fuel + 1, _ :: rest => findTagsF fuel rest

/-- All `#(\w+)` captures of a string, in order. -/
def findTags (s : String) : List String := findTagsF (s.data.length + 1) s.data

/-- Fuelled scanner modelling `Regex::new(r"\[\[([^\]]+)\]\]").captures_iter`:
after `[[`, a maximal non-empty run of non-`]` characters must be followed
by `]]`; on failure the engine retries from the character after the first
`[`. -/
def findLinksF : Nat → List Char → List String
  | 0, _ => []
  | _ + 1, [] => []
  | fuel + 1, '[' :: '[' :: rest =>
    let inner := rest.takeWhile (fun c => c ≠ ']')
    let after := rest.dropWhile (fun c => c ≠ ']')
    (match after with
     | ']' :: ']' :: rest2 =>
       if inner = [] then findLinksF fuel ('[' :: rest)
       else String.mk inner :: findLinksF fuel rest2
     | _ => findLinksF fuel ('[' :: rest))
  | fuel + 1, _ :: rest => findLinksF fuel rest

/-- All `\[\[([^\]]+)\]\]` captures of a string, in order. -/
def findLinks (s : String) : List String := findLinksF (s.data.length + 1) s.data

/-- Model of `if !vec.contains(&x) { vec.push(x) }`. -/
def pushUnique (acc : List String) (x : String) : List String :=
  if acc.contains x then acc else acc ++ [x]

mutual
/-- Second pass of parser.rs (identical in both crates):
`extract_tags_and_links` walks the block list, and for each block first
folds its tag captures and then its link captures into the accumulators,
skipping values already present, then recurses into the children. -/
def extract_tags_and_links : List Block → List String → List String →
    List String × List String
  | [], tags, links => (tags, links)
  | b :: rest, tags, links =>
    let r := extract_block b tags links
    extract_tags_and_links rest r.1 r.2
/-- One block's contribution in `extract_tags_and_links`: tags of the
content, then links of the content, then the children in order. -/
def extract_block : Block → List String → List String →
    List String × List String
  | .mk _ content children _ _, tags, links =>
    let tags' := (findTags content).foldl pushUnique tags
    let links' := (findLinks content).foldl pushUnique links
    extract_tags_and_links children tags' links'
end

/-- Blank-line test `line.trim().is_empty()` used by both block parsers. -/
def isBlankLine (line : String) : Bool := trimChars line.data = []

/-- Block id `format!("block-{}-{}", base_level, blocks.len())` used by
both block parsers. -/
def mkBlockId (base_level idx : Nat) : String :=
  "block-" ++ toString base_level ++ "-" ++ toString idx

namespace PublishSpa

/-- Indentation counter `count_indent` of publish-spa parser.rs: walking the
leading characters, a tab adds one level, a pair of spaces adds one level,
and a lone space (followed by a non-space or the end) is skipped; the first
other character stops the walk. -/
def countIndentChars : List Char → Nat
  | '\t' :: rest => 1 + countIndentChars rest
  | ' ' :: ' ' :: rest => 1 + countIndentChars rest
  | ' ' :: rest => countIndentChars rest
  | _ => 0

/-- `count_indent` on a line (publish-spa parser.rs, lines 144-169). -/
def count_indent (line : String) : Nat := countIndentChars line.data

/-- Bullet stripping of `extract_block_content` (publish-spa parser.rs):
after trimming, a leading `"- "`, `"* "` or `"+ "` (two ASCII bytes, hence
two characters) is removed. -/
def stripBulletChars : List Char → List Char
  | '-' :: ' ' :: rest => rest
  | '*' :: ' ' :: rest => rest
  | '+' :: ' ' :: rest => rest
  | l => l

/-- `extract_block_content` of publish-spa parser.rs. -/
def extract_block_content (line : String) : String :=
  String.mk (stripBulletChars (trimChars line.data))

/-- The child-collection loop of publish-spa `parse_blocks`: starting after
the current line, blank lines are skipped (consumed, never terminating the
run), lines with strictly greater indentation are collected, and the first
non-blank line with indentation at most `indent` ends the run and begins
the remainder. -/
def collectChildLines (indent : Nat) : List String → List String × List String
  | [] => ([], [])
  | l :: rest =>
    if isBlankLine l then collectChildLines indent rest
    else if indent < count_indent l then
      let r := collectChildLines indent rest
      (l :: r.1, r.2)
    else ([], l :: rest)

/-- Fuelled embedding of publish-spa `parse_blocks` (parser.rs lines
84-142); `idx` is `blocks.len()` at the head of the loop. The Rust
function returns `Result` but constructs no error, so it is embedded as a
total function; the fuel `lines.length + 1` supplied by `parse_blocks` is
ample because every recursive call processes a strictly shorter list. -/
def parse_blocks_aux : Nat → Nat → Nat → List String → List Block
  | 0, _, _, _ => []
  | _ + 1, _, _, [] => []
  | fuel + 1, base_level, idx, line :: rest =>
    if isBlankLine line then parse_blocks_aux fuel base_level idx rest
    else
      let indent := count_indent line
      let content := extract_block_content line
      let r := collectChildLines indent rest
      if r.1.isEmpty then
        Block.mk (mkBlockId base_level idx) content [] [] indent
          :: parse_blocks_aux fuel base_level (idx + 1) rest
      else
        Block.mk (mkBlockId base_level idx) content
            (parse_blocks_aux fuel (indent + 1) 0 r.1) [] indent
          :: parse_blocks_aux fuel base_level (idx + 1) r.2

/-- `parse_blocks` of publish-spa parser.rs. -/
def parse_blocks (lines : List String) (base_level : Nat) : List Block :=
  parse_blocks_aux (lines.length + 1) base_level 0 lines

/-- `extract_title` of publish-spa parser.rs. -/
def extract_title (path : String) : String :=
  trim_end_matches (trim_end_matches (lastSegment path) ".md") ".markdown"

/-- Error type of publish-spa (errors.rs): only the `Parse` variant, the
one the parser can produce, is modelled; `PublishError::parse(path, e)`
stores the file and the message. -/
inductive PublishError : Type where
  | Parse (file : String) (message : String)
deriving DecidableEq

/-- Page assembly shared by both branches of `parse_logseq_page`:
blocks are parsed from `lines[i..]` when `i` is in range (publish-spa
guards `i < lines.len()`), then tags and links are extracted. -/
def assemblePage (path : String) (i : Nat) (lines : List String)
    (props : List (String × String)) : Page :=
  let blocks := if i < lines.length then parse_blocks (lines.drop i) 0 else []
  let tl := extract_tags_and_links blocks [] []
  { path := path, title := extract_title path, properties := props,
    blocks := blocks, tags := tl.1, links := tl.2 }

/-- `parse_logseq_page` of publish-spa parser.rs (lines 26-56): when the
first line is exactly `---`, properties are read from the following lines
and an unclosed frontmatter becomes `PublishError::parse(path, e)`; on
success block parsing resumes `2` past the closing delimiter's relative
index. -/
def parse_logseq_page (content : String) (path : String) :
    Except PublishError Page :=
  let lines := rustLines content
  if lines.head? = some "---" then
    match parse_properties lines.tail [] with
    | .error e => .error (.Parse path e)
    | .ok r => .ok (assemblePage path (r.1 + 2) lines r.2)
  else .ok (assemblePage path 0 lines [])

end PublishSpa

/-- The page graph of publish-spa graph.rs: `HashMap<String, Page>` and
`HashMap<String, Vec<String>>` are modelled as association lists with
unique keys (lookup, length and per-key contents — everything the claims
observe — agree with the hash map; only iteration order differs). -/
structure Graph where
  pages : List (String × Page)
  backlinks : List (String × List String)

/-- `Graph::new`. -/
def Graph.new : Graph := ⟨[], []⟩

/-- Model of `self.pages.insert(path, page)`: replaces the entry for an
existing key, otherwise adds one (so the key set stays duplicate-free). -/
def insertPage (k : String) (v : Page) : List (String × Page) → List (String × Page)
  | [] => [(k, v)]
  | (k', v') :: rest =>
    if k' = k then (k, v) :: rest else (k', v') :: insertPage k v rest

/-- Model of
`self.backlinks.entry(link).or_insert_with(Vec::new).push(path)`. -/
def pushBacklink (target source : String) :
    List (String × List String) → List (String × List String)
  | [] => [(target, [source])]
  | (k, vs) :: rest =>
    if k = target then (k, vs ++ [source]) :: rest
    else (k, vs) :: pushBacklink target source rest

/-- `Graph::add_page` (publish-spa graph.rs lines 27-39): pushes this
page's path onto the backlink list of every outbound link, one entry per
occurrence, then inserts (replace-or-add) the page under its path. -/
def Graph.add_page (g : Graph) (page : Page) : Graph :=
  let path := page.path
  { pages := insertPage path page g.pages,
    backlinks := page.links.foldl (fun bl link => pushBacklink link path bl) g.backlinks }

/-- Association-list lookup, modelling `HashMap::get`. -/
def lookupStr {α : Type} (k : String) : List (String × α) → Option α
  | [] => none
  | (k', v) :: rest => if k' = k then some v else lookupStr k rest

/-- `Graph::get_page`. -/
def Graph.get_page (g : Graph) (path : String) : Option Page :=
  lookupStr path g.pages

/-- `Graph::get_backlinks`: the stored list, or an empty one. -/
def Graph.get_backlinks (g : Graph) (path : String) : List String :=
  (lookupStr path g.backlinks).getD []

/-- `Graph::page_count`. -/
def Graph.page_count (g : Graph) : Nat := g.pages.length

/-- Decides whether a (path, content) file parses successfully with the
publish-spa parser. -/
def parsesOk (pc : String × String) : Bool :=
  match PublishSpa.parse_logseq_page pc.2 pc.1 with
  | .ok _ => true
  | .error _ => false

/-- One iteration of the batch loop of publish-spa lib.rs (`publish` /
`parse_graph`, lines 115-124): the file is parsed and added; a file whose
parse fails is logged and skipped, and the loop continues. -/
def add_parsed (g : Graph) (pc : String × String) : Graph :=
  match PublishSpa.parse_logseq_page pc.2 pc.1 with
  | .ok page => g.add_page page
  | .error _ => g

/-- The whole batch loop of publish-spa lib.rs folded over the file list. -/
def build_graph (files : List (String × String)) : Graph :=
  files.foldl add_parsed Graph.new

namespace Logseq

/-- Indentation count of logseq-publisher-rust parse_blocks (parser.rs
line 92): `line.chars().take_while(|c| c.is_whitespace()).count()`. -/
def leading_ws_count (line : String) : Nat :=
  (line.data.takeWhile isRustWs).length

/-- Block content of logseq-publisher-rust parse_blocks (parser.rs lines
96-100): when the trimmed line starts with `-` or `*`, every leading `-`
is removed, then every leading `*`, then the result is trimmed again;
otherwise the trimmed line is kept. -/
def logseq_content (line : String) : String :=
  let t := trimChars line.data
  if t.head? = some '-' || t.head? = some '*' then
    String.mk (trimChars ((t.dropWhile (fun c => c = '-')).dropWhile (fun c => c = '*')))
  else String.mk t

/-- Child-collection loop of logseq-publisher-rust `parse_blocks`: same
shape as the publish-spa one but comparing raw leading-whitespace counts. -/
def collectChildLines (indent : Nat) : List String → List String × List String
  | [] => ([], [])
  | l :: rest =>
    if isBlankLine l then collectChildLines indent rest
    else if indent < leading_ws_count l then
      let r := collectChildLines indent rest
      (l :: r.1, r.2)
    else ([], l :: rest)

/-- Fuelled embedding of logseq-publisher-rust `parse_blocks` (parser.rs
lines 78-140): the level is `indent / 2` of the raw leading-whitespace
count, children are collected by comparing raw counts, and the recursion
enters them with base level `level + 1`. -/
def parse_blocks_aux : Nat → Nat → Nat → List String → List Block
  | 0, _, _, _ => []
  | _ + 1, _, _, [] => []
  | fuel + 1, base_level, idx, line :: rest =>
    if isBlankLine line then parse_blocks_aux fuel base_level idx rest
    else
      let indent := leading_ws_count line
      let level := indent / 2
      let content := logseq_content line
      let r := collectChildLines indent rest
      if r.1.isEmpty then
        Block.mk (mkBlockId base_level idx) content [] [] level
          :: parse_blocks_aux fuel base_level (idx + 1) rest
      else
        Block.mk (mkBlockId base_level idx) content
            (parse_blocks_aux fuel (level + 1) 0 r.1) [] level
          :: parse_blocks_aux fuel base_level (idx + 1) r.2

/-- `parse_blocks` of logseq-publisher-rust parser.rs. -/
def parse_blocks (lines : List String) (base_level : Nat) : List Block :=
  parse_blocks_aux (lines.length + 1) base_level 0 lines

/-- `extract_title` of logseq-publisher-rust parser.rs (only `.md` is
trimmed). -/
def extract_title (path : String) : String :=
  trim_end_matches (lastSegment path) ".md"

/-- Page assembly of logseq-publisher-rust `parse_logseq_page`: no
`i < lines.len()` guard (the index can reach, but never exceed, the
length, and the empty slice parses to no blocks). -/
def assemblePage (path : String) (i : Nat) (lines : List String)
    (props : List (String × String)) : Page :=
  let blocks := parse_blocks (lines.drop i) 0
  let tl := extract_tags_and_links blocks [] []
  { path := path, title := extract_title path, properties := props,
    blocks := blocks, tags := tl.1, links := tl.2 }

/-- `parse_logseq_page` of logseq-publisher-rust parser.rs (lines 25-51):
same control flow as the publish-spa one but the error is the bare
`String` message, without the path. -/
def parse_logseq_page (content : String) (path : String) : Except String Page :=
  let lines := rustLines content
  if lines.head? = some "---" then
    match parse_properties lines.tail [] with
    | .error e => .error e
    | .ok r => .ok (assemblePage path (r.1 + 2) lines r.2)
  else .ok (assemblePage path 0 lines [])

/-- `LogseqPublisher::parse_files` (logseq-publisher-rust lib.rs lines
36-48): files are folded into the publisher's graph, but a parse error is
propagated with `?` (as `"Parse error: {e}"`), aborting the rest of the
batch. The `HashMap` iteration is modelled by the given list order. The
crate's own graph module is absent from src; its `add_page` is modelled
from the spec (§4.2), which describes the same behaviour as the
publish-spa graph embedded above, so that embedding is reused. -/
def parse_files (g : Graph) : List (String × String) → Except String Graph
  | [] => .ok g
  | (path, content) :: rest =>
    match parse_logseq_page content path with
    | .error e => .error ("Parse error: " ++ e)
    | .ok page => parse_files (g.add_page page) rest

end Logseq

/-! Spec-side definitions: written from the specification's words, to be
compared against the source embeddings above. -/

/-- Leading whitespace (tabs and spaces) of a line, as characters. -/
def leadingIndentWs (l : List Char) : List Char :=
  l.takeWhile (fun c => c = '\t' || c = ' ')

/-- Number of two-space groups in a whitespace prefix: each maximal run of
consecutive spaces contributes half its length rounded down (so "a trailing
odd space is ignored"); `run` is the length of the space run in progress. -/
def spaceGroupsAux : List Char → Nat → Nat
  | [], run => run / 2
  | c :: rest, run =>
    if c = ' ' then spaceGroupsAux rest (run + 1)
    else run / 2 + spaceGroupsAux rest 0

/-- Modelled from the spec: "Indentation level = count of leading tab
characters (one level each) plus count of leading two-space groups (a
trailing odd space is ignored)." -/
def specIndentLevel (line : String) : Nat :=
  (leadingIndentWs line.data).count '\t' + spaceGroupsAux (leadingIndentWs line.data) 0

/-- Modelled from the spec: de-duplication "preserving first-occurrence
order" — each element is kept at the position of its first occurrence and
all later occurrences are dropped. -/
def dedupFO : List String → List String
  | [] => []
  | x :: xs => x :: dedupFO (xs.filter (fun y => y != x))
termination_by l => l.length
decreasing_by
  simp only [List.length_cons]
  exact Nat.lt_succ_of_le (List.length_filter_le _ _)

mutual
/-- Raw (un-deduplicated) tag stream of a pre-order walk of a block list:
the spec's "pre-order walk of the block tree" extraction before
de-duplication. -/
def rawTags : List Block → List String
  | [] => []
  | b :: rest => rawTagsB b ++ rawTags rest
/-- Raw tag stream of one block: its own content's captures, then its
children's, in order. -/
def rawTagsB : Block → List String
  | .mk _ content children _ _ => findTags content ++ rawTags children
end

mutual
/-- Raw (un-deduplicated) wiki-link stream of a pre-order walk. -/
def rawLinks : List Block → List String
  | [] => []
  | b :: rest => rawLinksB b ++ rawLinks rest
/-- Raw wiki-link stream of one block. -/
def rawLinksB : Block → List String
  | .mk _ content children _ _ => findLinks content ++ rawLinks children
end

/-- Modelled from the spec: "Leading bullet markers (`-`, `*`, `+`
followed by a space) are stripped to produce block content" — when the
first two characters are such a marker and a space they are removed. -/
def specStripChars : List Char → List Char
  | b :: s :: rest =>
    if (b = '-' ∨ b = '*' ∨ b = '+') ∧ s = ' ' then rest else b :: s :: rest
  | l => l

/-- The spec's bullet stripping applied to a trimmed line. -/
def specStripBullet (line : String) : String :=
  String.mk (specStripChars (trimChars line.data))

/-- Well-formed nesting levels: every child's level is strictly greater
than its parent's, recursively — the invariant claimed of the parser
output. -/
inductive BlockWf : Block → Prop where
  | mk : ∀ (id content : String) (children : List Block)
      (props : List (String × String)) (level : Nat),
      (∀ c ∈ children, level < c.level) →
      (∀ c ∈ children, BlockWf c) →
      BlockWf (Block.mk id content children props level)

/-- Sibling-id distinctness: the ids of any one children list are pairwise
distinct, recursively. -/
inductive SiblingIdsDistinct : Block → Prop where
  | mk : ∀ (id content : String) (children : List Block)
      (props : List (String × String)) (level : Nat),
      (children.map Block.id).Nodup →
      (∀ c ∈ children, SiblingIdsDistinct c) →
      SiblingIdsDistinct (Block.mk id content children props level)

/-- Membership of a block anywhere in a block forest. -/
inductive BlockIn : Block → List Block → Prop where
  | here : ∀ b bs, b ∈ bs → BlockIn b bs
  | child : ∀ b c bs, c ∈ bs → BlockIn b c.children → BlockIn b bs

/-- Folds a list of pages into a fresh graph with `add_page`, in order —
the graph-building scenario of the backlink-index invariant. -/
def add_all (ps : List Page) : Graph := ps.foldl Graph.add_page Graph.new

/-- The number of occurrences of `t` among the outbound links of the page
stored at `q` (0 when no page is stored there) — the spec's "paths of
pages currently listing T among their outbound links", counted per
occurrence. -/
def storedLinkCount (g : Graph) (q t : String) : Nat :=
  match g.get_page q with
  | some p => p.links.count t
  | none => 0

/-- Decimal digit list of a natural number, most significant first — a
specification for `Nat.repr` used to prove block ids distinct. -/
def specDigits (n : Nat) : List Char :=
  if h : n < 10 then [Nat.digitChar n]
  else specDigits (n / 10) ++ [Nat.digitChar (n % 10)]
decreasing_by
  exact Nat.div_lt_self (by omega) (by omega)

mutual
/-- Size of a block forest, for induction over the nested `Block` type. -/
def blocksSize : List Block → Nat
  | [] => 1
  | b :: rest => blockSize b + blocksSize rest
/-- Size of one block (1 plus the size of its children forest). -/
def blockSize : Block → Nat
  | .mk _ _ ch _ _ => 1 + blocksSize ch
end

/-! Helper lemmas about the graph. -/

theorem lookup_pushBacklink (bl : List (String × List String)) (t src T : String) :
    (lookupStr T (pushBacklink t src bl)).getD [] =
      (lookupStr T bl).getD [] ++ (if t = T then [src] else []) := by
  induction bl with
  | nil => by_cases h : t = T <;> simp [pushBacklink, lookupStr, h]
  | cons hd tl ih =>
    obtain ⟨k, vs⟩ := hd
    by_cases hk : k = t
    · subst hk
      by_cases hT : k = T
      · simp [pushBacklink, lookupStr, hT]
      · simp [pushBacklink, lookupStr, hT]
    · by_cases hT : k = T
      · have ht : ¬ t = T := fun h => hk (hT.trans h.symm)
        have ht' : ¬ T = t := fun h => ht h.symm
        simp [pushBacklink, lookupStr, hk, hT, ht, ht']
      · simp [pushBacklink, lookupStr, hk, hT, ih]

theorem get_backlinks_foldl (links : List String) (bl : List (String × List String))
    (src T : String) :
    (lookupStr T (links.foldl (fun b l => pushBacklink l src b) bl)).getD [] =
      (lookupStr T bl).getD [] ++ List.replicate (links.count T) src := by
  induction links generalizing bl with
  | nil => simp
  | cons l ls ih =>
    simp only [List.foldl_cons]
    rw [ih, lookup_pushBacklink, List.count_cons, List.append_assoc]
    by_cases h : l = T
    · simp [h, List.replicate_succ]
    · have : ¬ (T = l) := fun hh => h hh.symm
      simp [h, this]

theorem add_page_get_backlinks (g : Graph) (P : Page) (T : String) :
    (g.add_page P).get_backlinks T =
      g.get_backlinks T ++ List.replicate (P.links.count T) P.path := by
  simp [Graph.add_page, Graph.get_backlinks, get_backlinks_foldl]

theorem lookup_insertPage (ps : List (String × Page)) (k q : String) (v : Page) :
    lookupStr q (insertPage k v ps) = if k = q then some v else lookupStr q ps := by
  induction ps with
  | nil => by_cases h : k = q <;> simp [insertPage, lookupStr, h]
  | cons hd tl ih =>
    obtain ⟨k', v'⟩ := hd
    by_cases hk : k' = k
    · subst hk
      by_cases hq : k' = q <;> simp [insertPage, lookupStr, hq]
    · by_cases hq : k' = q
      · subst hq
        have : ¬ k = k' := fun h => hk h.symm
        simp [insertPage, lookupStr, hk, this]
      · simp [insertPage, lookupStr, hk, hq, ih]

theorem add_page_get_page (g : Graph) (P : Page) (q : String) :
    (g.add_page P).get_page q = if P.path = q then some P else g.get_page q := by
  simp [Graph.add_page, Graph.get_page, lookup_insertPage]

theorem insertPage_length_of_mem (ps : List (String × Page)) (k : String) (v v' : Page)
    (h : lookupStr k ps = some v') : (insertPage k v ps).length = ps.length := by
  induction ps with
  | nil => simp [lookupStr] at h
  | cons hd tl ih =>
    obtain ⟨k', w⟩ := hd
    by_cases hk : k' = k
    · simp [insertPage, hk]
    · simp only [lookupStr, if_neg hk] at h
      simp [insertPage, hk, ih h]

/-- C1 — after `add_page` the backlink list of every target `T` is the old
list with the page's path appended once per occurrence of `T` among its
links; in particular, when the old list contained no entry with this path,
the path occurs exactly once per occurrence of `T` among the links. (The
claim's unconditional "exactly once per occurrence" fails when the graph
already held entries with the same source path — see the counterexample.) -/
theorem C1_add_page_backlink_entries (g : Graph) (P : Page) (T : String) :
    (g.add_page P).get_backlinks T =
      g.get_backlinks T ++ List.replicate (P.links.count T) P.path ∧
    ((g.get_backlinks T).count P.path = 0 →
      ((g.add_page P).get_backlinks T).count P.path = P.links.count T) := by
  refine ⟨add_page_get_backlinks g P T, fun h0 => ?_⟩
  rw [add_page_get_backlinks, List.count_append, h0, List.count_replicate]
  simp

/-- Witness for C1 at a concrete fresh graph. -/
theorem C1_witness :
    (((Graph.new).add_page (Page.mk "p.md" "p" [] [] [] ["b.md", "c.md", "b.md"])).get_backlinks
        "b.md").count "p.md" =
      (Page.mk "p.md" "p" [] [] [] ["b.md", "c.md", "b.md"]).links.count "b.md" :=
  (C1_add_page_backlink_entries Graph.new
    (Page.mk "p.md" "p" [] [] [] ["b.md", "c.md", "b.md"]) "b.md").2 (by decide)

/-- Counterexample to C1 as stated: adding the same page twice leaves the
first call's entries in place, so after the second `add_page` the target's
backlink list holds the path twice although the page lists the target
once. -/
theorem C1_counterexample :
    (((Graph.new).add_page (Page.mk "p.md" "p" [] [] [] ["b.md"])).add_page
        (Page.mk "p.md" "p" [] [] [] ["b.md"])).get_backlinks "b.md" = ["p.md", "p.md"] ∧
    (Page.mk "p.md" "p" [] [] [] ["b.md"]).links.count "b.md" = 1 := by
  constructor
  · rfl
  · decide

/-- C4 — re-adding a page at an existing path replaces the stored page,
keeps the page count unchanged, appends backlink entries for the new
page's links, and leaves every previously recorded backlink entry
(including those of the superseded version) in place. -/
theorem C4_add_page_replaces (g : Graph) (P Q : Page)
    (h : g.get_page P.path = some Q) :
    (g.add_page P).get_page P.path = some P ∧
    (g.add_page P).page_count = g.page_count ∧
    ∀ T, (g.add_page P).get_backlinks T =
      g.get_backlinks T ++ List.replicate (P.links.count T) P.path := by
  refine ⟨?_, ?_, fun T => add_page_get_backlinks g P T⟩
  · rw [add_page_get_page]; simp
  · exact insertPage_length_of_mem g.pages P.path P Q h

/-- Witness for C4: replacing the only page of a one-page graph. -/
theorem C4_witness :
    ((((Graph.new).add_page (Page.mk "p.md" "p" [] [] [] ["x.md"])).add_page
        (Page.mk "p.md" "p2" [] [] [] ["y.md"])).get_page "p.md" =
      some (Page.mk "p.md" "p2" [] [] [] ["y.md"])) ∧
    (((Graph.new).add_page (Page.mk "p.md" "p" [] [] [] ["x.md"])).add_page
        (Page.mk "p.md" "p2" [] [] [] ["y.md"])).page_count =
      ((Graph.new).add_page (Page.mk "p.md" "p" [] [] [] ["x.md"])).page_count := by
  have h := C4_add_page_replaces ((Graph.new).add_page (Page.mk "p.md" "p" [] [] [] ["x.md"]))
    (Page.mk "p.md" "p2" [] [] [] ["y.md"]) (Page.mk "p.md" "p" [] [] [] ["x.md"]) rfl
  exact ⟨h.1, h.2.1⟩

theorem add_all_concat (ps : List Page) (p : Page) :
    add_all (ps ++ [p]) = (add_all ps).add_page p := by
  simp [add_all]

theorem get_backlinks_new (T : String) : Graph.new.get_backlinks T = [] := rfl

theorem add_all_backlinks_count (ps : List Page) (T q : String) :
    ((add_all ps).get_backlinks T).count q =
      (ps.map (fun p => if p.path = q then p.links.count T else 0)).sum := by
  induction ps using List.reverseRecOn with
  | nil => simp [add_all, Graph.new, Graph.get_backlinks, lookupStr]
  | append_singleton ps p ih =>
    rw [add_all_concat, add_page_get_backlinks, List.count_append, ih,
      List.count_replicate, List.map_append, List.sum_append]
    by_cases h : p.path = q
    · simp [h]
    · have : ¬ (q = p.path) := fun hh => h hh.symm
      simp [h, this]

theorem add_all_backlinks_count_zero (ps : List Page) (T q : String)
    (h : q ∉ ps.map Page.path) : ((add_all ps).get_backlinks T).count q = 0 := by
  rw [add_all_backlinks_count]
  have : ∀ x ∈ ps.map (fun p => if p.path = q then p.links.count T else 0), x = 0 := by
    intro x hx
    obtain ⟨p, hp, hpx⟩ := List.mem_map.mp hx
    have : ¬ p.path = q := fun he => h (List.mem_map.mpr ⟨p, hp, he⟩)
    simpa [this] using hpx.symm
  exact List.sum_eq_zero this

theorem add_all_get_page_not_mem (ps : List Page) (q : String)
    (h : q ∉ ps.map Page.path) : (add_all ps).get_page q = none := by
  induction ps using List.reverseRecOn with
  | nil => rfl
  | append_singleton ps p ih =>
    rw [add_all_concat, add_page_get_page]
    simp only [List.map_append, List.mem_append] at h
    push_neg at h
    have h1 : ¬ p.path = q := by
      intro he
      exact (h.2 (by simp [he]))
    rw [if_neg h1]
    exact ih h.1

/-- C2 — with the claim restricted to histories in which no `add_page`
call replaces an existing path (all added paths distinct), the backlink
list of every target `T` holds each stored page's path once per occurrence
of `T` among that page's outbound links, and nothing else.  (The
unrestricted claim fails after a replacement — see the counterexample.) -/
theorem C2_backlink_index_consistent (ps : List Page)
    (hnd : (ps.map Page.path).Nodup) (T q : String) :
    ((add_all ps).get_backlinks T).count q = storedLinkCount (add_all ps) q T := by
  induction ps using List.reverseRecOn with
  | nil => simp [add_all, storedLinkCount, Graph.new, Graph.get_page,
      Graph.get_backlinks, lookupStr]
  | append_singleton ps p ih =>
    have hnd' : (ps.map Page.path).Nodup := by
      rw [List.map_append] at hnd
      exact hnd.of_append_left
    have hnotin : p.path ∉ ps.map Page.path := by
      rw [List.map_append] at hnd
      intro hmem
      have := List.disjoint_of_nodup_append hnd
      exact this hmem (by simp)
    rw [add_all_concat, storedLinkCount, add_page_get_page,
      add_page_get_backlinks, List.count_append, List.count_replicate]
    by_cases h : p.path = q
    · subst h
      rw [if_pos rfl]
      rw [add_all_backlinks_count_zero ps T p.path hnotin]
      simp
    · have hq : ¬ (q = p.path) := fun hh => h hh.symm
      rw [if_neg h]
      simp only [h, hq, if_false, beq_iff_eq, Nat.add_zero]
      have := ih hnd'
      rw [storedLinkCount] at this
      exact this

/-- Witness for C2 on a concrete two-page graph with distinct paths. -/
theorem C2_witness :
    ((add_all [Page.mk "a.md" "a" [] [] [] ["b.md", "b.md"],
               Page.mk "b.md" "b" [] [] [] ["a.md"]]).get_backlinks "b.md").count "a.md" =
      storedLinkCount (add_all [Page.mk "a.md" "a" [] [] [] ["b.md", "b.md"],
               Page.mk "b.md" "b" [] [] [] ["a.md"]]) "a.md" "b.md" :=
  C2_backlink_index_consistent
    [Page.mk "a.md" "a" [] [] [] ["b.md", "b.md"], Page.mk "b.md" "b" [] [] [] ["a.md"]]
    (by decide) "b.md" "a.md"

/-- Counterexample to C2 as stated: after replacing a page with a version
that drops its links, the backlink list for the old target still holds the
replacing page's path although no stored page links to that target. -/
theorem C2_counterexample :
    (((Graph.new).add_page (Page.mk "p.md" "p" [] [] [] ["b.md"])).add_page
        (Page.mk "p.md" "p" [] [] [] [])).get_backlinks "b.md" = ["p.md"] ∧
    ((((Graph.new).add_page (Page.mk "p.md" "p" [] [] [] ["b.md"])).add_page
        (Page.mk "p.md" "p" [] [] [] [])).get_page "p.md").map Page.links = some [] := by
  exact ⟨rfl, rfl⟩

theorem parse_properties_error_of_not_mem (lines : List String)
    (props : List (String × String)) (h : "---" ∉ lines) :
    parse_properties lines props = .error "Unclosed frontmatter" := by
  induction lines generalizing props with
  | nil => rfl
  | cons l rest ih =>
    have h1 : ¬ l = "---" := fun he => h (he ▸ List.mem_cons_self l rest)
    have h2 : "---" ∉ rest := fun hm => h (List.mem_cons_of_mem l hm)
    rw [parse_properties, if_neg h1, ih _ h2]
    rfl

theorem parse_properties_ok_of_mem (lines : List String)
    (props : List (String × String)) (h : "---" ∈ lines) :
    ∃ r, parse_properties lines props = .ok r := by
  induction lines generalizing props with
  | nil => cases h
  | cons l rest ih =>
    by_cases h1 : l = "---"
    · exact ⟨(0, props), by rw [parse_properties, if_pos h1]⟩
    · have h2 : "---" ∈ rest := by
        cases List.mem_cons.mp h with
        | inl he => exact absurd he.symm h1
        | inr hm => exact hm
      obtain ⟨r, hr⟩ := ih (match split_once l ':' with
        | some kv => insertProp (strTrim kv.1) (strTrim kv.2) props
        | none => props) h2
      refine ⟨(r.1 + 1, r.2), ?_⟩
      rw [parse_properties, if_neg h1, hr]
      rfl

/-- C3 — `parse_logseq_page` (publish-spa) fails exactly when the first
line is `---` and no later line is `---`; the failure is the `Parse` error
carrying the given path and the message `Unclosed frontmatter`, and every
other input parses to some page. -/
theorem C3_unclosed_frontmatter_only_error (content path : String) :
    (((rustLines content).head? = some "---" ∧ "---" ∉ (rustLines content).tail) →
      PublishSpa.parse_logseq_page content path =
        .error (.Parse path "Unclosed frontmatter")) ∧
    (¬ ((rustLines content).head? = some "---" ∧ "---" ∉ (rustLines content).tail) →
      ∃ page, PublishSpa.parse_logseq_page content path = .ok page) := by
  constructor
  · rintro ⟨h1, h2⟩
    rw [PublishSpa.parse_logseq_page]
    simp only [if_pos h1, parse_properties_error_of_not_mem _ _ h2]
  · intro hn
    by_cases h1 : (rustLines content).head? = some "---"
    · have h2 : "---" ∈ (rustLines content).tail := by
        by_contra hc
        exact hn ⟨h1, hc⟩
      obtain ⟨r, hr⟩ := parse_properties_ok_of_mem _ [] h2
      refine ⟨PublishSpa.assemblePage path (r.1 + 2) (rustLines content) r.2, ?_⟩
      rw [PublishSpa.parse_logseq_page]
      simp only [if_pos h1, hr]
    · refine ⟨PublishSpa.assemblePage path 0 (rustLines content) [], ?_⟩
      rw [PublishSpa.parse_logseq_page]
      simp only [if_neg h1]

/-- Witness for C3: an unclosed frontmatter fails with the path-carrying
error, and an input with a closed frontmatter parses. -/
theorem C3_witness :
    PublishSpa.parse_logseq_page "---\nfoo: bar" "p.md" =
      .error (.Parse "p.md" "Unclosed frontmatter") ∧
    ∃ page, PublishSpa.parse_logseq_page "---\nfoo: bar\n---\n- x" "p.md" = .ok page :=
  ⟨(C3_unclosed_frontmatter_only_error "---\nfoo: bar" "p.md").1 (by decide),
   (C3_unclosed_frontmatter_only_error "---\nfoo: bar\n---\n- x" "p.md").2 (by decide)⟩

theorem splitOnceAux_none (c : Char) (l : List Char) (h : l.contains c = false) :
    splitOnceAux c l = none := by
  induction l with
  | nil => rfl
  | cons x xs ih =>
    simp only [List.contains_cons, Bool.or_eq_false_iff, beq_eq_false_iff_ne] at h
    rw [splitOnceAux, if_neg (fun he => h.1 he.symm), ih h.2]
    rfl

/-- C10 — inside the frontmatter, a line that is not the closing delimiter
and has no `:` contributes nothing and raises nothing: collection simply
continues with the remaining lines (the returned closing index shifts by
one). -/
theorem C10_colonless_line_ignored (l : String) (rest : List String)
    (props : List (String × String)) (h1 : l ≠ "---")
    (h2 : l.data.contains ':' = false) :
    parse_properties (l :: rest) props =
      (parse_properties rest props).map (fun r => (r.1 + 1, r.2)) := by
  have hs : split_once l ':' = none := by
    rw [split_once, splitOnceAux_none ':' l.data h2]
    rfl
  rw [parse_properties, if_neg h1, hs]

/-- Witness for C10: a blank-ish junk line before the closing delimiter is
skipped. -/
theorem C10_witness :
    parse_properties ["no colon here", "---"] [] =
      (parse_properties ["---"] []).map (fun r => (r.1 + 1, r.2)) :=
  C10_colonless_line_ignored "no colon here" ["---"] [] (by decide) (by decide)

theorem parse_logseq_page_path (content pa : String) (page : Page)
    (h : PublishSpa.parse_logseq_page content pa = .ok page) : page.path = pa := by
  rw [PublishSpa.parse_logseq_page] at h
  split at h
  · split at h
    · cases h
    · cases h
      simp [PublishSpa.assemblePage]
  · cases h
    simp [PublishSpa.assemblePage]

theorem foldl_add_parsed_filter (files : List (String × String)) (g : Graph) :
    files.foldl add_parsed g = (files.filter parsesOk).foldl add_parsed g := by
  induction files generalizing g with
  | nil => rfl
  | cons pc rest ih =>
    cases hp : PublishSpa.parse_logseq_page pc.2 pc.1 with
    | ok page =>
      have hok : parsesOk pc = true := by simp [parsesOk, hp]
      rw [List.filter_cons_of_pos hok]
      simp only [List.foldl_cons]
      exact ih (add_parsed g pc)
    | error e =>
      have hko : parsesOk pc = false := by simp [parsesOk, hp]
      rw [List.filter_cons_of_neg (by simp [hko])]
      simp only [List.foldl_cons]
      have hstep : add_parsed g pc = g := by simp [add_parsed, hp]
      rw [hstep]
      exact ih g

theorem foldl_add_parsed_none (files : List (String × String)) (p : String) :
    ∀ g : Graph, g.get_page p = none →
    (∀ pc ∈ files, pc.1 = p → parsesOk pc = false) →
    (files.foldl add_parsed g).get_page p = none := by
  induction files with
  | nil => intro g hg _; exact hg
  | cons pc rest ih =>
    intro g hg hall
    simp only [List.foldl_cons]
    refine ih (add_parsed g pc) ?_ (fun qc hq => hall qc (List.mem_cons_of_mem pc hq))
    cases hp : PublishSpa.parse_logseq_page pc.2 pc.1 with
    | ok page =>
      have hpath : page.path = pc.1 := parse_logseq_page_path pc.2 pc.1 page hp
      have hne : pc.1 ≠ p := by
        intro he
        have := hall pc (List.mem_cons_self pc rest) he
        simp [parsesOk, hp] at this
      rw [add_parsed, hp, add_page_get_page, hpath, if_neg hne]
      exact hg
    | error e =>
      rw [add_parsed, hp]
      exact hg

/-- C9 — with the claim read against the publish-spa batch loop: a file
whose parse fails is simply skipped (the build equals the build of the
successfully parsing files alone), and a path all of whose files fail to
parse is absent from the resulting graph.  (The logseq-publisher-rust
`parse_files` batch entry point instead aborts on the first failure — see
the counterexample.) -/
theorem C9_parse_failure_skipped (files : List (String × String)) :
    build_graph files = build_graph (files.filter parsesOk) ∧
    ∀ p : String, (∀ pc ∈ files, pc.1 = p → parsesOk pc = false) →
      (build_graph files).get_page p = none := by
  constructor
  · exact foldl_add_parsed_filter files Graph.new
  · intro p hall
    exact foldl_add_parsed_none files p Graph.new rfl hall

/-- Witness for C9: in a three-file batch whose middle file has an
unclosed frontmatter, the failed path is absent from the graph. -/
theorem C9_witness :
    (build_graph [("a.md", "- x [[b]]"), ("bad.md", "---\nfoo: bar"), ("b.md", "- y")]).get_page
      "bad.md" = none :=
  (C9_parse_failure_skipped
    [("a.md", "- x [[b]]"), ("bad.md", "---\nfoo: bar"), ("b.md", "- y")]).2
    "bad.md" (by decide)

/-- Counterexample to C9 as stated: the logseq-publisher-rust batch entry
point `parse_files` propagates the first parse error and aborts, so the
later file of the batch is never parsed or added and no graph is
produced. -/
theorem C9_counterexample :
    Logseq.parse_files Graph.new [("bad.md", "---\nfoo: bar"), ("good.md", "- hi")] =
      .error "Parse error: Unclosed frontmatter" := rfl

theorem spaceGroupsAux_add_two (l : List Char) : ∀ r : Nat,
    spaceGroupsAux l (r + 2) = 1 + spaceGroupsAux l r := by
  induction l with
  | nil => intro r; simp only [spaceGroupsAux]; omega
  | cons c l' ih =>
    intro r
    by_cases hc : c = ' '
    · simp only [spaceGroupsAux, if_pos hc]
      have : r + 2 + 1 = (r + 1) + 2 := by omega
      rw [this, ih (r + 1)]
    · simp only [spaceGroupsAux, if_neg hc]
      omega

theorem spaceGroupsAux_one (l : List Char) (h : l.head? ≠ some ' ') :
    spaceGroupsAux l 1 = spaceGroupsAux l 0 := by
  cases l with
  | nil => rfl
  | cons c l' =>
    have hc : ¬ c = ' ' := fun he => h (by simp [he])
    simp [spaceGroupsAux, hc]

theorem countIndentChars_eq_spec (l : List Char) :
    PublishSpa.countIndentChars l =
      (leadingIndentWs l).count '\t' + spaceGroupsAux (leadingIndentWs l) 0 := by
  induction l using PublishSpa.countIndentChars.induct with
  | case1 rest ih =>
    have hl : leadingIndentWs ('\t' :: rest) = '\t' :: leadingIndentWs rest := by
      simp [leadingIndentWs]
    rw [PublishSpa.countIndentChars, hl, ih]
    have h2 : spaceGroupsAux ('\t' :: leadingIndentWs rest) 0 =
        spaceGroupsAux (leadingIndentWs rest) 0 := by
      simp [spaceGroupsAux]
    rw [h2, List.count_cons]
    simp
    omega
  | case2 rest ih =>
    have hl : leadingIndentWs (' ' :: ' ' :: rest) = ' ' :: ' ' :: leadingIndentWs rest := by
      simp [leadingIndentWs]
    rw [PublishSpa.countIndentChars, hl, ih]
    have h2 : spaceGroupsAux (' ' :: ' ' :: leadingIndentWs rest) 0 =
        1 + spaceGroupsAux (leadingIndentWs rest) 0 := by
      simp only [spaceGroupsAux, if_pos rfl]
      exact spaceGroupsAux_add_two (leadingIndentWs rest) 0
    rw [h2, List.count_cons, List.count_cons]
    simp
    omega
  | case3 rest h ih =>
    have hl : leadingIndentWs (' ' :: rest) = ' ' :: leadingIndentWs rest := by
      simp [leadingIndentWs]
    rw [PublishSpa.countIndentChars, hl, ih]
    have hh : (leadingIndentWs rest).head? ≠ some ' ' := by
      cases rest with
      | nil => simp [leadingIndentWs]
      | cons c r' =>
        by_cases hc : (c = '\t' || c = ' ') = true
        · have : ¬ c = ' ' := by
            intro he
            exact h r' (by rw [he])
          simp only [leadingIndentWs, List.takeWhile_cons, hc, if_true]
          simp [this]
        · simp [leadingIndentWs, List.takeWhile_cons, hc]
    have h2 : spaceGroupsAux (' ' :: leadingIndentWs rest) 0 =
        spaceGroupsAux (leadingIndentWs rest) 0 := by
      simp only [spaceGroupsAux, if_pos rfl]
      exact spaceGroupsAux_one (leadingIndentWs rest) hh
    rw [h2, List.count_cons]
    simp
    exact h
  | case4 l h1 h2 h3 =>
    cases l with
    | nil => rfl
    | cons c r' =>
      have hct : ¬ c = '\t' := fun he => h1 r' (by rw [he])
      have hcs : ¬ c = ' ' := by
        intro he
        cases r' with
        | nil => exact h3 [] (by rw [he])
        | cons d r'' =>
          by_cases hd : d = ' '
          · exact h2 r'' (by rw [he, hd])
          · exact h3 (d :: r'') (by rw [he])
      have hl : leadingIndentWs (c :: r') = [] := by
        simp [leadingIndentWs, List.takeWhile_cons, hct, hcs]
      have hz : PublishSpa.countIndentChars (c :: r') = 0 := by
        rw [PublishSpa.countIndentChars.eq_def]
        split
        · simp_all
        · simp_all
        · simp_all
        · rfl
      rw [hl, hz]
      rfl

/-- C6 — with the claim read against the publish-spa parser: the level a
block receives from its line is `count_indent`, which equals the number of
leading tabs plus the number of two-space groups of each leading space
run, a trailing odd space per run being ignored.  (The
logseq-publisher-rust parser instead halves the raw leading-whitespace
count, giving a single tab level 0 — see the counterexample.) -/
theorem C6_indent_level (line : String) :
    PublishSpa.count_indent line = specIndentLevel line ∧
    (isBlankLine line = false →
      (PublishSpa.parse_blocks [line] 0).map Block.level =
        [PublishSpa.count_indent line]) := by
  constructor
  · exact countIndentChars_eq_spec line.data
  · intro h
    show (PublishSpa.parse_blocks_aux 2 0 0 [line]).map Block.level = _
    rw [PublishSpa.parse_blocks_aux]
    rw [if_neg (by simp [h])]
    simp [PublishSpa.collectChildLines, PublishSpa.parse_blocks_aux, Block.level]

/-- Witness for C6 at a tab-indented line: the assigned level is 1. -/
theorem C6_witness :
    (PublishSpa.parse_blocks ["\t- x"] 0).map Block.level =
      [PublishSpa.count_indent "\t- x"] :=
  (C6_indent_level "\t- x").2 (by decide)

/-- Counterexample to C6 as stated: the logseq-publisher-rust parser
assigns the block of a tab-indented line level 0, while the claimed
tab-plus-two-space-group count of that line is 1. -/
theorem C6_counterexample :
    (Logseq.parse_logseq_page "\t- x" "p.md").map (fun p => p.blocks.map Block.level) =
      .ok [0] ∧ specIndentLevel "\t- x" = 1 := by
  constructor
  · rfl
  · decide

theorem collect_mem_child (ind : Nat) (lines : List String) (l : String)
    (h : l ∈ (PublishSpa.collectChildLines ind lines).1) :
    isBlankLine l = false ∧ ind < PublishSpa.count_indent l := by
  induction lines with
  | nil => cases h
  | cons x rest ih =>
    by_cases hb : isBlankLine x
    · rw [PublishSpa.collectChildLines, if_pos hb] at h
      exact ih h
    · rw [PublishSpa.collectChildLines, if_neg hb] at h
      by_cases hi : ind < PublishSpa.count_indent x
      · rw [if_pos hi] at h
        simp only [] at h
        cases List.mem_cons.mp h with
        | inl he => subst he; exact ⟨Bool.eq_false_iff.mpr hb, hi⟩
        | inr hm => exact ih hm
      · rw [if_neg hi] at h
        cases h

theorem collect_mem_rest (ind : Nat) (lines : List String) (l : String)
    (h : l ∈ (PublishSpa.collectChildLines ind lines).2) : l ∈ lines := by
  induction lines with
  | nil => cases h
  | cons x rest ih =>
    by_cases hb : isBlankLine x
    · rw [PublishSpa.collectChildLines, if_pos hb] at h
      exact List.mem_cons_of_mem x (ih h)
    · rw [PublishSpa.collectChildLines, if_neg hb] at h
      by_cases hi : ind < PublishSpa.count_indent x
      · rw [if_pos hi] at h
        exact List.mem_cons_of_mem x (ih h)
      · rw [if_neg hi] at h
        exact h

theorem parse_blocks_aux_level_gt (n : Nat) : ∀ (fuel bl idx : Nat) (lines : List String),
    (∀ l ∈ lines, isBlankLine l = false → n < PublishSpa.count_indent l) →
    ∀ b ∈ PublishSpa.parse_blocks_aux fuel bl idx lines, n < b.level := by
  intro fuel
  induction fuel with
  | zero => intro bl idx lines _ b hb; cases hb
  | succ fuel ih =>
    intro bl idx lines hlines b hb
    cases lines with
    | nil => cases hb
    | cons line rest =>
      rw [PublishSpa.parse_blocks_aux] at hb
      by_cases hblank : isBlankLine line
      · rw [if_pos hblank] at hb
        exact ih bl idx rest (fun l hl => hlines l (List.mem_cons_of_mem line hl)) b hb
      · rw [if_neg hblank] at hb
        simp only [] at hb
        have hrest : ∀ l ∈ rest, isBlankLine l = false → n < PublishSpa.count_indent l :=
          fun l hl => hlines l (List.mem_cons_of_mem line hl)
        have hhead : n < PublishSpa.count_indent line :=
          hlines line (List.mem_cons_self line rest) (Bool.eq_false_iff.mpr hblank)
        split at hb
        · cases List.mem_cons.mp hb with
          | inl he => subst he; exact hhead
          | inr hm => exact ih bl (idx + 1) rest hrest b hm
        · cases List.mem_cons.mp hb with
          | inl he => subst he; exact hhead
          | inr hm =>
            refine ih bl (idx + 1) _ ?_ b hm
            intro l hl
            exact hrest l (collect_mem_rest _ rest l hl)

theorem parse_blocks_aux_wf : ∀ (fuel bl idx : Nat) (lines : List String),
    ∀ b ∈ PublishSpa.parse_blocks_aux fuel bl idx lines, BlockWf b := by
  intro fuel
  induction fuel with
  | zero => intro bl idx lines b hb; cases hb
  | succ fuel ih =>
    intro bl idx lines b hb
    cases lines with
    | nil => cases hb
    | cons line rest =>
      rw [PublishSpa.parse_blocks_aux] at hb
      by_cases hblank : isBlankLine line
      · rw [if_pos hblank] at hb
        exact ih bl idx rest b hb
      · rw [if_neg hblank] at hb
        simp only [] at hb
        split at hb
        · cases List.mem_cons.mp hb with
          | inl he =>
            subst he
            exact BlockWf.mk _ _ _ _ _ (fun c hc => absurd hc (List.not_mem_nil c))
              (fun c hc => absurd hc (List.not_mem_nil c))
          | inr hm => exact ih bl (idx + 1) rest b hm
        · cases List.mem_cons.mp hb with
          | inl he =>
            subst he
            refine BlockWf.mk _ _ _ _ _ ?_ ?_
            · intro c hc
              refine parse_blocks_aux_level_gt _ fuel _ 0 _ ?_ c hc
              intro l hl _
              exact (collect_mem_child _ rest l hl).2
            · intro c hc
              exact ih _ 0 _ c hc
          | inr hm => exact ih bl (idx + 1) _ b hm

theorem assemblePage_blocks_wf (path : String) (i : Nat) (lines : List String)
    (props : List (String × String)) :
    ∀ b ∈ (PublishSpa.assemblePage path i lines props).blocks, BlockWf b := by
  intro b hb
  rw [PublishSpa.assemblePage] at hb
  simp only [] at hb
  split at hb
  · exact parse_blocks_aux_wf _ 0 0 _ b hb
  · cases hb

/-- C5 — with the claim read against the publish-spa parser: in every page
it produces, each child block's level is strictly greater than its
parent's, throughout the tree.  (The logseq-publisher-rust parser violates
this: a one-space-indented child keeps its parent's level — see the
counterexample.) -/
theorem C5_child_level_strictly_greater (content path : String) (page : Page)
    (h : PublishSpa.parse_logseq_page content path = .ok page) :
    ∀ b ∈ page.blocks, BlockWf b := by
  rw [PublishSpa.parse_logseq_page] at h
  split at h
  · split at h
    · cases h
    · cases h
      exact assemblePage_blocks_wf path _ _ _
  · cases h
    exact assemblePage_blocks_wf path 0 _ []

/-- Witness for C5 at a concrete two-level page. -/
theorem C5_witness :
    BlockWf (Block.mk "block-0-0" "a" [Block.mk "block-1-0" "b" [] [] 1] [] 0) :=
  C5_child_level_strictly_greater "- a\n  - b" "p.md"
    (Page.mk "p.md" "p" []
      [Block.mk "block-0-0" "a" [Block.mk "block-1-0" "b" [] [] 1] [] 0] [] [])
    rfl (Block.mk "block-0-0" "a" [Block.mk "block-1-0" "b" [] [] 1] [] 0)
    (List.mem_singleton.mpr rfl)

/-- Counterexample to C5 as stated: the logseq-publisher-rust parser gives
a child block indented by a single space the same level (0) as its
top-level parent. -/
theorem C5_counterexample :
    (Logseq.parse_logseq_page "- a\n - b" "p.md").map
      (fun p => p.blocks.map (fun b => (b.level, b.children.map Block.level))) =
    .ok [(0, [0])] := rfl

theorem digitChar_inj : ∀ a < 10, ∀ b < 10, Nat.digitChar a = Nat.digitChar b → a = b := by
  decide

theorem specDigits_ne_nil (n : Nat) : specDigits n ≠ [] := by
  rw [specDigits]
  split
  · exact List.cons_ne_nil _ _
  · intro hc
    have := congrArg List.length hc
    simp at this

theorem toDigitsCore_eq_spec : ∀ (fuel n : Nat) (ds : List Char), n < fuel →
    Nat.toDigitsCore 10 fuel n ds = specDigits n ++ ds := by
  intro fuel
  induction fuel with
  | zero => intro n ds h; omega
  | succ fuel ih =>
    intro n ds h
    rw [Nat.toDigitsCore]
    by_cases h0 : n / 10 = 0
    · rw [if_pos h0]
      have hn : n < 10 := by omega
      rw [specDigits, dif_pos hn, Nat.mod_eq_of_lt hn]
      rfl
    · rw [if_neg h0]
      have hge : ¬ n < 10 := by omega
      have hlt : n / 10 < fuel := by
        have hx : n / 10 < n := Nat.div_lt_self (by omega) (by omega)
        omega
      have hN : specDigits n = specDigits (n / 10) ++ [Nat.digitChar (n % 10)] := by
        rw [specDigits]; rw [dif_neg hge]
      rw [ih (n / 10) _ hlt, hN, List.append_assoc]
      rfl

theorem specDigits_inj : ∀ a : Nat, ∀ b : Nat, specDigits a = specDigits b → a = b := by
  intro a
  induction a using Nat.strong_induction_on with
  | _ a ih =>
    intro b h
    by_cases ha : a < 10 <;> by_cases hb : b < 10
    · have hA : specDigits a = [Nat.digitChar a] := by
        rw [specDigits]; rw [dif_pos ha]
      have hB : specDigits b = [Nat.digitChar b] := by
        rw [specDigits]; rw [dif_pos hb]
      rw [hA, hB] at h
      injection h with h1 _
      exact digitChar_inj a ha b hb h1
    · have hA : specDigits a = [Nat.digitChar a] := by
        rw [specDigits]; rw [dif_pos ha]
      have hB : specDigits b = specDigits (b / 10) ++ [Nat.digitChar (b % 10)] := by
        rw [specDigits]; rw [dif_neg hb]
      rw [hA, hB] at h
      cases hsd : specDigits (b / 10) with
      | nil => exact absurd hsd (specDigits_ne_nil _)
      | cons x xs =>
        rw [hsd] at h
        simp at h
    · have hA : specDigits a = specDigits (a / 10) ++ [Nat.digitChar (a % 10)] := by
        rw [specDigits]; rw [dif_neg ha]
      have hB : specDigits b = [Nat.digitChar b] := by
        rw [specDigits]; rw [dif_pos hb]
      rw [hA, hB] at h
      cases hsd : specDigits (a / 10) with
      | nil => exact absurd hsd (specDigits_ne_nil _)
      | cons x xs =>
        rw [hsd] at h
        simp at h
    · have hA : specDigits a = specDigits (a / 10) ++ [Nat.digitChar (a % 10)] := by
        rw [specDigits]; rw [dif_neg ha]
      have hB : specDigits b = specDigits (b / 10) ++ [Nat.digitChar (b % 10)] := by
        rw [specDigits]; rw [dif_neg hb]
      rw [hA, hB] at h
      have hr := congrArg List.reverse h
      simp only [List.reverse_append, List.reverse_cons, List.reverse_nil,
        List.nil_append, List.singleton_append, List.cons.injEq] at hr
      have hmod : a % 10 = b % 10 :=
        digitChar_inj (a % 10) (Nat.mod_lt a (by omega)) (b % 10)
          (Nat.mod_lt b (by omega)) hr.1
      have hdiv : a / 10 = b / 10 := by
        have hrev : specDigits (a / 10) = specDigits (b / 10) :=
          List.reverse_injective hr.2
        exact ih (a / 10) (Nat.div_lt_self (by omega) (by omega)) (b / 10) hrev
      have h1 := Nat.div_add_mod a 10
      have h2 := Nat.div_add_mod b 10
      omega

theorem string_eq_of_data (a b : String) (h : a.data = b.data) : a = b := by
  cases a with
  | mk da =>
    cases b with
    | mk db => exact congrArg String.mk h

theorem nat_repr_inj (a b : Nat) (h : Nat.repr a = Nat.repr b) : a = b := by
  rw [Nat.repr, Nat.repr, Nat.toDigits, Nat.toDigits] at h
  have hd := congrArg String.data h
  have ha : (List.asString (Nat.toDigitsCore 10 (a + 1) a [])).data =
      Nat.toDigitsCore 10 (a + 1) a [] := rfl
  have hb : (List.asString (Nat.toDigitsCore 10 (b + 1) b [])).data =
      Nat.toDigitsCore 10 (b + 1) b [] := rfl
  rw [ha, hb, toDigitsCore_eq_spec (a + 1) a [] (by omega),
    toDigitsCore_eq_spec (b + 1) b [] (by omega)] at hd
  simp at hd
  exact specDigits_inj a b hd

theorem string_data_append (a b : String) : (a ++ b).data = a.data ++ b.data := rfl

theorem mkBlockId_inj (bl i j : Nat) (h : mkBlockId bl i = mkBlockId bl j) : i = j := by
  rw [mkBlockId, mkBlockId] at h
  have hd := congrArg String.data h
  simp only [string_data_append, List.append_assoc] at hd
  have h1 := List.append_cancel_left hd
  have h2 := List.append_cancel_left h1
  have h3 := List.append_cancel_left h2
  have : toString i = toString j := string_eq_of_data _ _ h3
  exact nat_repr_inj i j this

theorem mkBlockId_injective (bl : Nat) : Function.Injective (fun j => mkBlockId bl j) :=
  fun i j h => mkBlockId_inj bl i j h

theorem parse_blocks_aux_ids : ∀ (fuel bl idx : Nat) (lines : List String),
    (PublishSpa.parse_blocks_aux fuel bl idx lines).map Block.id =
      (List.range (PublishSpa.parse_blocks_aux fuel bl idx lines).length).map
        (fun j => mkBlockId bl (idx + j)) := by
  intro fuel
  induction fuel with
  | zero => intro bl idx lines; rfl
  | succ fuel ih =>
    intro bl idx lines
    cases lines with
    | nil => rfl
    | cons line rest =>
      rw [PublishSpa.parse_blocks_aux]
      by_cases hblank : isBlankLine line
      · rw [if_pos hblank]
        exact ih bl idx rest
      · rw [if_neg hblank]
        simp only []
        split
        · rw [List.map_cons, List.length_cons, List.range_succ_eq_map,
            List.map_cons, List.map_map, ih bl (idx + 1) rest]
          simp only [Block.id, Nat.add_zero]
          congr 1
          apply List.map_congr_left
          intro j _
          show mkBlockId bl (idx + 1 + j) = mkBlockId bl (idx + (j + 1))
          exact congrArg (mkBlockId bl) (by omega)
        · rw [List.map_cons, List.length_cons, List.range_succ_eq_map,
            List.map_cons, List.map_map, ih bl (idx + 1)]
          simp only [Block.id, Nat.add_zero]
          congr 1
          apply List.map_congr_left
          intro j _
          show mkBlockId bl (idx + 1 + j) = mkBlockId bl (idx + (j + 1))
          exact congrArg (mkBlockId bl) (by omega)

theorem parse_blocks_aux_ids_nodup (fuel bl idx : Nat) (lines : List String) :
    ((PublishSpa.parse_blocks_aux fuel bl idx lines).map Block.id).Nodup := by
  rw [parse_blocks_aux_ids]
  refine List.Nodup.map ?_ (List.nodup_range _)
  intro i j h
  have := mkBlockId_inj bl (idx + i) (idx + j) h
  omega

theorem parse_blocks_aux_sibling_ids : ∀ (fuel bl idx : Nat) (lines : List String),
    ∀ b ∈ PublishSpa.parse_blocks_aux fuel bl idx lines, SiblingIdsDistinct b := by
  intro fuel
  induction fuel with
  | zero => intro bl idx lines b hb; cases hb
  | succ fuel ih =>
    intro bl idx lines b hb
    cases lines with
    | nil => cases hb
    | cons line rest =>
      rw [PublishSpa.parse_blocks_aux] at hb
      by_cases hblank : isBlankLine line
      · rw [if_pos hblank] at hb
        exact ih bl idx rest b hb
      · rw [if_neg hblank] at hb
        simp only [] at hb
        split at hb
        · cases List.mem_cons.mp hb with
          | inl he =>
            subst he
            exact SiblingIdsDistinct.mk _ _ _ _ _ List.nodup_nil
              (fun c hc => absurd hc (List.not_mem_nil c))
          | inr hm => exact ih bl (idx + 1) rest b hm
        · cases List.mem_cons.mp hb with
          | inl he =>
            subst he
            exact SiblingIdsDistinct.mk _ _ _ _ _
              (parse_blocks_aux_ids_nodup fuel _ 0 _) (fun c hc => ih _ 0 _ c hc)
          | inr hm => exact ih bl (idx + 1) _ b hm

theorem assemblePage_blocks_sibling_ids (path : String) (i : Nat) (lines : List String)
    (props : List (String × String)) :
    ((PublishSpa.assemblePage path i lines props).blocks.map Block.id).Nodup ∧
    ∀ b ∈ (PublishSpa.assemblePage path i lines props).blocks, SiblingIdsDistinct b := by
  rw [PublishSpa.assemblePage]
  simp only []
  split
  · exact ⟨parse_blocks_aux_ids_nodup _ 0 0 _, parse_blocks_aux_sibling_ids _ 0 0 _⟩
  · exact ⟨List.nodup_nil, fun b hb => absurd hb (List.not_mem_nil b)⟩

/-- C8 — with the claim weakened to what the id scheme
`block-{base_level}-{index}` guarantees: ids are pairwise distinct among
sibling blocks (the top-level list, and every children list, recursively).
Blocks in different sibling lists of the same page can share an id — see
the counterexample. -/
theorem C8_sibling_ids_distinct (content path : String) (page : Page)
    (h : PublishSpa.parse_logseq_page content path = .ok page) :
    (page.blocks.map Block.id).Nodup ∧ ∀ b ∈ page.blocks, SiblingIdsDistinct b := by
  rw [PublishSpa.parse_logseq_page] at h
  split at h
  · split at h
    · cases h
    · cases h
      exact assemblePage_blocks_sibling_ids path _ _ _
  · cases h
    exact assemblePage_blocks_sibling_ids path 0 _ []

/-- Witness for C8 at a concrete two-block page. -/
theorem C8_witness :
    ((["block-0-0", "block-0-1"] : List String).Nodup) ∧
    SiblingIdsDistinct (Block.mk "block-0-0" "a" [] [] 0) := by
  have h := C8_sibling_ids_distinct "- a\n- b" "p.md"
    (Page.mk "p.md" "p" []
      [Block.mk "block-0-0" "a" [] [] 0, Block.mk "block-0-1" "b" [] [] 0] [] [])
    rfl
  exact ⟨h.1, h.2 (Block.mk "block-0-0" "a" [] [] 0) (List.mem_cons_self _ _)⟩

/-- Counterexample to C8 as stated: two blocks of the same page, under
different parents, both receive the id `block-1-0` (their contents differ,
so they are distinct blocks). -/
theorem C8_counterexample :
    (PublishSpa.parse_logseq_page "- a\n  - b\n- c\n  - d" "p.md").map
      (fun p => p.blocks.map (fun b => b.children.map (fun c => (c.id, c.content)))) =
    .ok [[("block-1-0", "b")], [("block-1-0", "d")]] := rfl

theorem blocksSize_pos (bs : List Block) : 0 < blocksSize bs := by
  cases bs with
  | nil => decide
  | cons b rest =>
    cases b with
    | mk i c ch p lv =>
      rw [blocksSize, blockSize]
      omega

theorem extract_eq_raw : ∀ (bs : List Block) (tags links : List String),
    extract_tags_and_links bs tags links =
      (List.foldl pushUnique tags (rawTags bs), List.foldl pushUnique links (rawLinks bs)) := by
  have main : ∀ n : Nat, ∀ bs : List Block, blocksSize bs ≤ n → ∀ tags links : List String,
      extract_tags_and_links bs tags links =
        (List.foldl pushUnique tags (rawTags bs), List.foldl pushUnique links (rawLinks bs)) := by
    intro n
    induction n with
    | zero => intro bs hs; exact absurd hs (by have := blocksSize_pos bs; omega)
    | succ n ih =>
      intro bs hs tags links
      cases bs with
      | nil => simp [extract_tags_and_links, rawTags, rawLinks]
      | cons b rest =>
        cases b with
        | mk i c ch p lv =>
          have hsz : blocksSize (Block.mk i c ch p lv :: rest) =
              1 + blocksSize ch + blocksSize rest := rfl
          have hch : blocksSize ch ≤ n := by
            have := blocksSize_pos rest; omega
          have hrest : blocksSize rest ≤ n := by
            have := blocksSize_pos ch; omega
          rw [extract_tags_and_links]
          simp only [extract_block]
          rw [ih ch hch, ih rest hrest]
          simp only [rawTags, rawTagsB, rawLinks, rawLinksB]
          simp [List.foldl_append]
  intro bs tags links
  exact main (blocksSize bs) bs (Nat.le_refl _) tags links

theorem foldl_pushUnique_eq_dedupFO : ∀ (xs acc : List String),
    List.foldl pushUnique acc xs = acc ++ dedupFO (xs.filter (fun y => !acc.contains y)) := by
  intro xs
  induction xs with
  | nil =>
    intro acc
    simp only [List.filter_nil, List.foldl_nil]
    rw [dedupFO.eq_1]
    simp
  | cons x xs ih =>
    intro acc
    rw [List.foldl_cons]
    by_cases hc : acc.contains x
    · have hstep : pushUnique acc x = acc := by rw [pushUnique, if_pos hc]
      rw [hstep, ih acc, List.filter_cons]
      simp only [hc, Bool.not_true, Bool.false_eq_true, if_false]
    · have hstep : pushUnique acc x = acc ++ [x] := by rw [pushUnique, if_neg hc]
      have hcb : acc.contains x = false := Bool.eq_false_iff.mpr hc
      have hcx : (!acc.contains x) = true := by rw [hcb]; rfl
      have hD : xs.filter (fun y => !(acc ++ [x]).contains y) =
          (xs.filter (fun y => !acc.contains y)).filter (fun y => y != x) := by
        rw [List.filter_filter]
        apply List.filter_congr
        intro a _
        rw [Bool.eq_iff_iff]
        simp [bne]
        tauto
      rw [hstep, ih (acc ++ [x]), List.filter_cons, if_pos hcx, dedupFO, hD,
        List.append_assoc, List.singleton_append]

theorem mem_dedupFO : ∀ (xs : List String) (y : String), y ∈ dedupFO xs → y ∈ xs := by
  intro xs
  induction xs using dedupFO.induct with
  | case1 =>
    intro y hy
    rw [dedupFO.eq_1] at hy
    cases hy
  | case2 x xs ih =>
    intro y hy
    rw [dedupFO] at hy
    cases List.mem_cons.mp hy with
    | inl he => exact he ▸ List.mem_cons_self x xs
    | inr hm => exact List.mem_cons_of_mem x (List.mem_of_mem_filter (ih y hm))

theorem dedupFO_nodup : ∀ xs : List String, (dedupFO xs).Nodup := by
  intro xs
  induction xs using dedupFO.induct with
  | case1 =>
    rw [dedupFO.eq_1]
    exact List.nodup_nil
  | case2 x xs ih =>
    rw [dedupFO]
    refine List.Nodup.cons ?_ ih
    intro hmem
    have := List.of_mem_filter (mem_dedupFO _ x hmem)
    simp [bne] at this

theorem not_blockIn_nil (b : Block) : ¬ BlockIn b [] := by
  intro h
  cases h with
  | here x hm => exact absurd hm (List.not_mem_nil b)
  | child c x hc hbc => exact absurd hc (List.not_mem_nil c)

theorem collect_child_mem (ind : Nat) (lines : List String) (l : String)
    (h : l ∈ (PublishSpa.collectChildLines ind lines).1) : l ∈ lines := by
  induction lines with
  | nil => cases h
  | cons x rest ih =>
    by_cases hb : isBlankLine x
    · rw [PublishSpa.collectChildLines, if_pos hb] at h
      exact List.mem_cons_of_mem x (ih h)
    · rw [PublishSpa.collectChildLines, if_neg hb] at h
      by_cases hi : ind < PublishSpa.count_indent x
      · rw [if_pos hi] at h
        simp only [] at h
        cases List.mem_cons.mp h with
        | inl he => exact he ▸ List.mem_cons_self x rest
        | inr hm => exact List.mem_cons_of_mem x (ih hm)
      · rw [if_neg hi] at h
        cases h

theorem blockIn_cons_inv (b hd : Block) (tl : List Block) (h : BlockIn b (hd :: tl)) :
    b = hd ∨ BlockIn b hd.children ∨ BlockIn b tl := by
  cases h with
  | here x hm =>
    cases List.mem_cons.mp hm with
    | inl he => exact Or.inl he
    | inr hm2 => exact Or.inr (Or.inr (BlockIn.here _ _ hm2))
  | child c x hc hbc =>
    cases List.mem_cons.mp hc with
    | inl he => exact Or.inr (Or.inl (he ▸ hbc))
    | inr hm2 => exact Or.inr (Or.inr (BlockIn.child _ _ _ hm2 hbc))

theorem parse_blocks_aux_content : ∀ (fuel bl idx : Nat) (lines : List String) (b : Block),
    BlockIn b (PublishSpa.parse_blocks_aux fuel bl idx lines) →
    ∃ l ∈ lines, b.content = PublishSpa.extract_block_content l := by
  intro fuel
  induction fuel with
  | zero => intro bl idx lines b hb; exact absurd hb (not_blockIn_nil b)
  | succ fuel ih =>
    intro bl idx lines b hb
    cases lines with
    | nil => exact absurd hb (not_blockIn_nil b)
    | cons line rest =>
      rw [PublishSpa.parse_blocks_aux] at hb
      by_cases hblank : isBlankLine line
      · rw [if_pos hblank] at hb
        obtain ⟨l, hl, hc⟩ := ih bl idx rest b hb
        exact ⟨l, List.mem_cons_of_mem line hl, hc⟩
      · rw [if_neg hblank] at hb
        simp only [] at hb
        split at hb
        · rcases blockIn_cons_inv _ _ _ hb with he | hch | htl
          · subst he
            exact ⟨line, List.mem_cons_self line rest, rfl⟩
          · simp only [Block.children] at hch
            exact absurd hch (not_blockIn_nil b)
          · obtain ⟨l, hl, hc⟩ := ih bl (idx + 1) rest b htl
            exact ⟨l, List.mem_cons_of_mem line hl, hc⟩
        · rcases blockIn_cons_inv _ _ _ hb with he | hch | htl
          · subst he
            exact ⟨line, List.mem_cons_self line rest, rfl⟩
          · simp only [Block.children] at hch
            obtain ⟨l, hl, hc⟩ := ih (PublishSpa.count_indent line + 1) 0 _ b hch
            exact ⟨l, List.mem_cons_of_mem line (collect_child_mem _ rest l hl), hc⟩
          · obtain ⟨l, hl, hc⟩ := ih bl (idx + 1) _ b htl
            exact ⟨l, List.mem_cons_of_mem line (collect_mem_rest _ rest l hl), hc⟩

theorem stripBulletChars_eq_spec : ∀ t : List Char,
    PublishSpa.stripBulletChars t = specStripChars t := by
  intro t
  cases t with
  | nil => rfl
  | cons b t' =>
    cases t' with
    | nil =>
      have hs : PublishSpa.stripBulletChars [b] = [b] := by
        rw [PublishSpa.stripBulletChars.eq_def]
        split <;> simp_all
      rw [hs]
      rfl
    | cons s rest =>
      rw [specStripChars]
      by_cases hmark : (b = '-' ∨ b = '*' ∨ b = '+') ∧ s = ' '
      · rw [if_pos hmark]
        obtain ⟨hbm, hsp⟩ := hmark
        subst hsp
        rcases hbm with h1 | h1 | h1 <;> subst h1 <;> rfl
      · rw [if_neg hmark]
        rw [PublishSpa.stripBulletChars.eq_def]
        split <;> simp_all

theorem extract_block_content_eq_spec (line : String) :
    PublishSpa.extract_block_content line = specStripBullet line := by
  rw [PublishSpa.extract_block_content, specStripBullet, stripBulletChars_eq_spec]

theorem filter_not_contains_nil (xs : List String) :
    xs.filter (fun y => !(([] : List String).contains y)) = xs := by
  induction xs with
  | nil => rfl
  | cons a l ih => simp [List.filter_cons, ih]

theorem foldl_pushUnique_nil_eq_dedupFO (xs : List String) :
    List.foldl pushUnique [] xs = dedupFO xs := by
  rw [foldl_pushUnique_eq_dedupFO, filter_not_contains_nil]
  rfl

theorem assemblePage_tags (path : String) (i : Nat) (lines : List String)
    (props : List (String × String)) :
    (PublishSpa.assemblePage path i lines props).tags =
      dedupFO (rawTags (PublishSpa.assemblePage path i lines props).blocks) := by
  rw [PublishSpa.assemblePage]
  simp only []
  rw [extract_eq_raw]
  exact foldl_pushUnique_nil_eq_dedupFO _

theorem assemblePage_links (path : String) (i : Nat) (lines : List String)
    (props : List (String × String)) :
    (PublishSpa.assemblePage path i lines props).links =
      dedupFO (rawLinks (PublishSpa.assemblePage path i lines props).blocks) := by
  rw [PublishSpa.assemblePage]
  simp only []
  rw [extract_eq_raw]
  exact foldl_pushUnique_nil_eq_dedupFO _

theorem assemblePage_content (path : String) (i : Nat) (lines : List String)
    (props : List (String × String)) :
    ∀ b : Block, BlockIn b (PublishSpa.assemblePage path i lines props).blocks →
      ∃ l ∈ lines, b.content = PublishSpa.extract_block_content l := by
  intro b hb
  rw [PublishSpa.assemblePage] at hb
  simp only [] at hb
  split at hb
  · obtain ⟨l, hl, hc⟩ := parse_blocks_aux_content _ 0 0 _ b hb
    exact ⟨l, List.drop_subset i lines hl, hc⟩
  · exact absurd hb (not_blockIn_nil b)

/-- C7 — with the claim read against the publish-spa parser: the page's
tag and link lists are the first-occurrence de-duplications of the raw
capture streams of a pre-order walk of the block tree (hence duplicate
free), every block's content is the bullet-stripped form of one of the
input's lines, and the stripping removes exactly a leading `-`, `*` or `+`
followed by a space from the trimmed line.  (The logseq-publisher-rust
parser strips bullets differently — it ignores `+` and eats every leading
`-`/`*` — see the counterexample.) -/
theorem C7_dedup_and_bullet_strip (content path : String) (page : Page)
    (h : PublishSpa.parse_logseq_page content path = .ok page) :
    page.tags = dedupFO (rawTags page.blocks) ∧
    page.links = dedupFO (rawLinks page.blocks) ∧
    page.tags.Nodup ∧ page.links.Nodup ∧
    (∀ b : Block, BlockIn b page.blocks →
      ∃ l ∈ rustLines content, b.content = PublishSpa.extract_block_content l) ∧
    ∀ line, PublishSpa.extract_block_content line = specStripBullet line := by
  have main : ∀ (i : Nat) (props : List (String × String)),
      page = PublishSpa.assemblePage path i (rustLines content) props →
      page.tags = dedupFO (rawTags page.blocks) ∧
      page.links = dedupFO (rawLinks page.blocks) ∧
      page.tags.Nodup ∧ page.links.Nodup ∧
      (∀ b : Block, BlockIn b page.blocks →
        ∃ l ∈ rustLines content, b.content = PublishSpa.extract_block_content l) ∧
      ∀ line, PublishSpa.extract_block_content line = specStripBullet line := by
    intro i props he
    subst he
    refine ⟨assemblePage_tags path i _ props, assemblePage_links path i _ props, ?_, ?_,
      assemblePage_content path i _ props, extract_block_content_eq_spec⟩
    · rw [assemblePage_tags path i _ props]
      exact dedupFO_nodup _
    · rw [assemblePage_links path i _ props]
      exact dedupFO_nodup _
  rw [PublishSpa.parse_logseq_page] at h
  split at h
  · split at h
    · cases h
    · cases h
      exact main _ _ rfl
  · cases h
    exact main 0 [] rfl

/-- Witness for C7 at a page with repeated tags and links. -/
theorem C7_witness :
    (Page.mk "p.md" "p" []
      [Block.mk "block-0-0" "x #t [[l]] #t #u [[l]]" [] [] 0] ["t", "u"] ["l"]).tags =
    dedupFO (rawTags (Page.mk "p.md" "p" []
      [Block.mk "block-0-0" "x #t [[l]] #t #u [[l]]" [] [] 0] ["t", "u"] ["l"]).blocks) :=
  (C7_dedup_and_bullet_strip "- x #t [[l]] #t #u [[l]]" "p.md"
    (Page.mk "p.md" "p" []
      [Block.mk "block-0-0" "x #t [[l]] #t #u [[l]]" [] [] 0] ["t", "u"] ["l"]) rfl).1

/-- Counterexample to C7 as stated: the logseq-publisher-rust parser does
not strip the `+ ` bullet marker (the block's content keeps it), although
stripping it as the claim describes would give `x`. -/
theorem C7_counterexample :
    (Logseq.parse_logseq_page "+ x" "p.md").map (fun p => p.blocks.map Block.content) =
      .ok ["+ x"] ∧ specStripBullet "+ x" = "x" := by
  constructor
  · rfl
  · rfl
